import Mathlib

/-!
Shallow embedding of pyBPL's differentiable rendering pipeline
(`pybpl/rendering.py`) and relation model (`pybpl/relation.py`).

Conventions:
* Tensor entries are modelled as rationals (`ℚ`); 2-D points as `ℚ × ℚ`.
* The Euclidean square root (a transcendental operation) is passed in as a
  function parameter `sqrt : ℚ → ℚ`; theorems that do not depend on its
  value quantify over it.
* Images are stored flattened row-major as `List ℚ` together with their
  dimensions `(m, n)`; `torch.view` is then the identity.
* The Gaussian log-density and cdf used by the relation model, the natural
  logarithm, the b-spline evaluator `splines.get_stk_from_bspline` and the
  valid parametric bounds `bspline_gen_s` (the `splines` and `util` modules
  are not part of the sources at hand) are likewise passed as parameters
  and universally quantified in the theorems.
-/

/-- Pointwise subtraction of 2-D points (tensor broadcasting `-`). -/
def psub (a b : ℚ × ℚ) : ℚ × ℚ := (a.1 - b.1, a.2 - b.2)

/-- Python's `.long()` cast: truncation toward zero. -/
def pyLong (q : ℚ) : ℤ := if 0 ≤ q then ⌊q⌋ else ⌈q⌉

/-!  ## Motor generator (`rendering.vanilla_to_motor`)  -/

/-- The loop body of `vanilla_to_motor`.  `pairs` zips, per sub-stroke, the
control-point list `shapes[:,:,i]` with the scalar `invscales[i]`; `prev` is
the running `previous_pos`.  Returns the pair `(motor, motor_spline)` with
sub-strokes listed outermost. -/
def vanillaGo (spline : List (ℚ × ℚ) → ℕ → List (ℚ × ℚ)) (neval : ℕ) :
    (ℚ × ℚ) → List (List (ℚ × ℚ) × ℚ) → List (List (ℚ × ℚ)) × List (List (ℚ × ℚ))
  | _, [] => ([], [])
  | prev, (shape, s) :: rest =>
    let scaled := shape.map (fun p => (s * p.1, s * p.2))
    let traj := spline scaled neval
    let offset := psub (traj.headD (0, 0)) prev
    let motor_i := traj.map (fun p => psub p offset)
    let spline_i := scaled.map (fun p => psub p offset)
    let r := vanillaGo spline neval (motor_i.getLastD (0, 0)) rest
    (motor_i :: r.1, spline_i :: r.2)

/-- Model of `vanilla_to_motor(shapes, invscales, first_pos, neval)` from
`rendering.py`.  The b-spline evaluator `splines.get_stk_from_bspline` is the
parameter `spline`.  `shapes` is given with the sub-stroke axis outermost
(the source stores it as `(ncpt, 2, nsub)` and slices `shapes[:,:,i]`). -/
def vanilla_to_motor (spline : List (ℚ × ℚ) → ℕ → List (ℚ × ℚ))
    (shapes : List (List (ℚ × ℚ))) (invscales : List ℚ) (first_pos : ℚ × ℚ)
    (neval : ℕ) : List (List (ℚ × ℚ)) × List (List (ℚ × ℚ)) :=
  vanillaGo spline neval first_pos (shapes.zip invscales)

/-!  ## Bounds checking (`rendering.check_bounds`)  -/

/-- Per-point out-of-bounds test of `check_bounds`: the point is out when
its floor is negative or its ceiling exceeds the image size on either
axis. -/
def pointOut (imsize : ℤ × ℤ) (p : ℚ × ℚ) : Bool :=
  (decide (⌊p.1⌋ < 0) || decide (⌈p.1⌉ > imsize.1)) ||
    (decide (⌊p.2⌋ < 0) || decide (⌈p.2⌉ > imsize.2))

/-- Model of `check_bounds(myt, imsize)`: boolean vector marking the points of `myt`
that fall outside the image. -/
def check_bounds (myt : List (ℚ × ℚ)) (imsize : ℤ × ℤ) : List Bool :=
  myt.map (pointOut imsize)

/-!  ## Per-point ink assignment (`rendering.pair_dist` and the ink budget
     part of `rendering.render_image`)  -/

/-- Model of `pair_dist(D)`: Euclidean distance between consecutive points. -/
def pair_dist (sqrt : ℚ → ℚ) (D : List (ℚ × ℚ)) : List ℚ :=
  List.zipWith (fun a b => sqrt ((a.1 - b.1) ^ 2 + (a.2 - b.2) ^ 2)) D D.tail

/-- The `myink` computation of `render_image` before renormalization: a
single surviving point receives the full ink constant, otherwise each point
receives its clipped consecutive distance (first distance prepended) scaled
by `ink/max_dist`. -/
def strokeInk (sqrt : ℚ → ℚ) (ink maxDist : ℚ) (myt : List (ℚ × ℚ)) : List ℚ :=
  if myt.length = 1 then [ink]
  else
    let dist := (pair_dist sqrt myt).map (fun d => min d maxDist)
    let dist2 := dist.take 1 ++ dist
    dist2.map (fun d => ink / maxDist * d)

/-- The ink renormalization of `render_image`: spread evenly when the total
is near zero, scale up uniformly when it is below the nominal constant. -/
def normInk (ink : ℚ) (myink : List ℚ) : List ℚ :=
  let sumink := myink.sum
  if |sumink| < 1 / 1000000 then
    myink.map (fun _ => ink / (myink.length : ℚ))
  else if sumink < ink then
    myink.map (fun v => ink / sumink * v)
  else myink

/-!  ## Scatter accumulation (`rendering.seqadd`)  -/

/-- Modelled from the spec: `util.general.sub2ind` (not among the sources at
hand) converts 2-D subscripts into linear indices of the row-major flattened
grid, as used on the result of `D.view(-1)`. -/
def sub2ind (n : ℕ) (x y : ℤ) : ℤ := x * n + y

/-- Add `v` at position `i` of a flattened image; out-of-range positions
leave the image unchanged. -/
def addFlat : List ℚ → ℕ → ℚ → List ℚ
  | [], _, _ => []
  | a :: t, 0, v => (a + v) :: t
  | a :: t, j + 1, v => a :: addFlat t j v

/-- Model of `seqadd(D, lind_x, lind_y, inkval)`: the three parallel vectors are
packaged as one list of triples `(x, y, ink)`.  Out-of-bounds adding points
(w.r.t. the image size minus one) are discarded; the rest are grouped by
unique linear index, summed per group, and scatter-added into the image. -/
def seqadd (m n : ℕ) (D : List ℚ) (pts : List (ℚ × ℚ × ℚ)) : List ℚ :=
  let kept := pts.filter (fun p => !pointOut ((m : ℤ) - 1, (n : ℤ) - 1) (p.1, p.2.1))
  if kept.isEmpty then D
  else
    let pairs := kept.map (fun p => (sub2ind n (pyLong p.1) (pyLong p.2.1), p.2.2))
    let lind_unique := (pairs.map Prod.fst).dedup
    let grouped := lind_unique.map
      (fun i => (i, ((pairs.filter (fun q => decide (q.1 = i))).map Prod.snd).sum))
    grouped.foldl (fun acc q => addFlat acc q.1.toNat q.2) D

/-- Entry `j` of a flattened image (0 outside). -/
def nth (l : List ℚ) (j : ℕ) : ℚ := l.getD j 0

/-- Specification-side total: the ink that `seqadd` should deposit at flat
position `j` — the sum of the in-bounds contributions whose linear index is
`j`. -/
def inkAt (m n : ℕ) (pts : List (ℚ × ℚ × ℚ)) (j : ℕ) : ℚ :=
  ((pts.filter (fun p =>
      !pointOut ((m : ℤ) - 1, (n : ℤ) - 1) (p.1, p.2.1) &&
        decide ((sub2ind n (pyLong p.1) (pyLong p.2.1)).toNat = j))).map
    (fun p => p.2.2)).sum

/-!  ## The render loop (`rendering.render_image`)  -/

/-- Model of `space_motor_to_img`, per point: `(x, y) → (-y, x)`. -/
def space_motor_to_img (p : ℚ × ℚ) : ℚ × ℚ := (-p.2, p.1)

/-- Ratio `x_c_ratio` / `y_c_ratio` of `render_image`: fractional distance from
the floor neighbour. -/
def cRatio (x : ℚ) : ℚ := x - (⌊x⌋ : ℤ)

/-- Ratio `x_f_ratio` / `y_f_ratio` of `render_image`. -/
def fRatio (x : ℚ) : ℚ := 1 - cRatio x

/-- The rendering constants drawn from `parameters`. -/
structure RenderParams where
  m : ℕ
  n : ℕ
  ink : ℚ
  maxDist : ℚ

/-- One iteration of the stroke loop of `render_image`: bounds check, skip
or filter, ink budget, bilinear splat onto the four neighbours. -/
def renderSubstroke (sqrt : ℚ → ℚ) (P : RenderParams) (st : List ℚ × Bool)
    (traj : List (ℚ × ℚ)) : List ℚ × Bool :=
  let s : ℤ × ℤ := ((P.m : ℤ), (P.n : ℤ))
  let out := check_bounds traj s
  let flag := st.2 || out.any id
  if out.all id then (st.1, flag)
  else
    let myt := traj.filter (fun p => !pointOut s p)
    let myink := normInk P.ink (strokeInk sqrt P.ink P.maxDist myt)
    let z := myt.zip myink
    let p1 := z.map (fun q =>
      (((⌊q.1.1⌋ : ℤ) : ℚ), ((⌊q.1.2⌋ : ℤ) : ℚ), q.2 * fRatio q.1.1 * fRatio q.1.2))
    let p2 := z.map (fun q =>
      (((⌈q.1.1⌉ : ℤ) : ℚ), ((⌊q.1.2⌋ : ℤ) : ℚ), q.2 * cRatio q.1.1 * fRatio q.1.2))
    let p3 := z.map (fun q =>
      (((⌊q.1.1⌋ : ℤ) : ℚ), ((⌈q.1.2⌉ : ℤ) : ℚ), q.2 * fRatio q.1.1 * cRatio q.1.2))
    let p4 := z.map (fun q =>
      (((⌈q.1.1⌉ : ℤ) : ℚ), ((⌈q.1.2⌉ : ℤ) : ℚ), q.2 * cRatio q.1.1 * cRatio q.1.2))
    (seqadd P.m P.n (seqadd P.m P.n (seqadd P.m P.n (seqadd P.m P.n st.1 p1) p2) p3) p4,
      flag)

/-- The splatting part of `render_image`: convert every trajectory to image
space, then fold the stroke loop over an all-zero grid. -/
def render_strokes (sqrt : ℚ → ℚ) (P : RenderParams)
    (cell_traj : List (List (ℚ × ℚ))) : List ℚ × Bool :=
  let traj_img := cell_traj.map (List.map space_motor_to_img)
  traj_img.foldl (renderSubstroke sqrt P) (List.replicate (P.m * P.n) 0, false)

/-- The final noise blend of `render_image`:
`pimg = (1-epsilon)*pimg + epsilon*(1-pimg)` pixelwise. -/
def blendNoise (eps : ℚ) (pimg : List ℚ) : List ℚ :=
  pimg.map (fun p => (1 - eps) * p + eps * (1 - p))

/-- Everything `render_image` does after the stroke loop and before the
noise blend: `ink_ncon` broadening convolutions (`convB`, the `imfilter`
with `H_broaden`), truncation at 1, optionally two Gaussian blur
convolutions (`convG`, applied when `blur_sigma > 0`), and the final
truncation to `[0, 1]`. -/
def preNoise (sqrt : ℚ → ℚ) (convB convG : List ℚ → List ℚ) (ink_ncon : ℕ)
    (blurPos : Bool) (P : RenderParams) (cell_traj : List (List (ℚ × ℚ))) : List ℚ :=
  let pimg := convB^[ink_ncon] (render_strokes sqrt P cell_traj).1
  let pimg := pimg.map (fun p => min p 1)
  let pimg := if blurPos then convG (convG pimg) else pimg
  ((pimg.map (fun p => min p 1)).map (fun p => max p 0))

/-- Model of `render_image(cell_traj, epsilon, blur_sigma, parameters)`: the image
probability map and the off-page flag. -/
def render_image (sqrt : ℚ → ℚ) (convB convG : List ℚ → List ℚ) (ink_ncon : ℕ)
    (blurPos : Bool) (P : RenderParams) (cell_traj : List (List (ℚ × ℚ)))
    (eps : ℚ) : List ℚ × Bool :=
  (blendNoise eps (preNoise sqrt convB convG ink_ncon blurPos P cell_traj),
    (render_strokes sqrt P cell_traj).2)

/-!  ## Affine warp (`rendering.apply_warp`)  -/

/-- A 4-parameter affine transform: 2 scales, 2 translations. -/
structure AffineT where
  s1 : ℚ
  s2 : ℚ
  t1 : ℚ
  t2 : ℚ

/-- Modelled from the spec: `util.stroke.com_char` (not among the sources at
hand) computes the character's center of mass across all concatenated
trajectory points. -/
def com_char (cell : List (ℚ × ℚ)) : ℚ × ℚ :=
  ((cell.map Prod.fst).sum / (cell.length : ℚ),
    (cell.map Prod.snd).sum / (cell.length : ℚ))

/-- Modelled from the spec: `util.stroke.affine_warp` (not among the sources
at hand) maps every point of a stroke to `B[:2]*point + B[2:]`. -/
def affine_warp (stk : List (List (ℚ × ℚ))) (B : AffineT) : List (List (ℚ × ℚ)) :=
  stk.map (List.map (fun p => (B.s1 * p.1 + B.t1, B.s2 * p.2 + B.t2)))

/-- The point map applied by `apply_warp` for transform `A` and center of
mass `com`. -/
def warpPoint (A : AffineT) (com : ℚ × ℚ) (p : ℚ × ℚ) : ℚ × ℚ :=
  (A.s1 * p.1 + (A.t1 - (A.s1 - 1) * com.1), A.s2 * p.2 + (A.t2 - (A.s2 - 1) * com.2))

/-- Model of `apply_warp(motor_unwarped, A)`: anchor the scaling at the center of
mass and warp every stroke. -/
def apply_warp (motor_unwarped : List (List (List (ℚ × ℚ)))) (A : AffineT) :
    List (List (List (ℚ × ℚ))) :=
  let cell_traj := motor_unwarped.flatten
  let com := com_char cell_traj.flatten
  let B : AffineT := ⟨A.s1, A.s2, A.t1 - (A.s1 - 1) * com.1, A.t2 - (A.s2 - 1) * com.2⟩
  motor_unwarped.map (fun stk => affine_warp stk B)

/-!  ## Relation model (`relation.py`)  -/

/-- The two distribution functions of the 1-D normal `eval_spot_dist`
(`torch.distributions.Normal`), kept abstract. -/
structure Normal1D where
  logProb : ℚ → ℚ
  cdf : ℚ → ℚ

/-- Model of `score_eval_spot_token(eval_spot_token, eval_spot_dist, ncpt)`.  The
valid parametric bounds `lb, ub` returned by `bspline_gen_s(ncpt, 1)` (the
`splines` module is not among the sources at hand) are passed directly; the
natural logarithm is the parameter `logFn`.  A `-inf` log-probability is
modelled as `none`. -/
def score_eval_spot_token (logFn : ℚ → ℚ) (d : Normal1D) (lb ub : ℚ)
    (eval_spot_token : ℚ) : Option ℚ :=
  if eval_spot_token < lb ∨ eval_spot_token > ub then none
  else some (d.logProb eval_spot_token - logFn (d.cdf ub - d.cdf lb))

/-- The rejection loop of `sample_eval_spot_token`: `draws i` models the
`i`-th call to `eval_spot_dist.sample()`; `fuel` bounds the unbounded
`while` loop of the source, which accepts the first draw whose score is not
`-inf`. -/
def sampleLoop (logFn : ℚ → ℚ) (d : Normal1D) (draws : ℕ → ℚ) (lb ub : ℚ) :
    ℕ → ℕ → Option ℚ
  | _, 0 => none
  | i, fuel + 1 =>
    let eval_spot_token := draws i
    match score_eval_spot_token logFn d lb ub eval_spot_token with
    | none => sampleLoop logFn d draws lb ub (i + 1) fuel
    | some _ => some eval_spot_token

/-- Model of `sample_eval_spot_token(eval_spot_dist, ncpt)` with the draw stream made
explicit. -/
def sample_eval_spot_token (logFn : ℚ → ℚ) (d : Normal1D) (draws : ℕ → ℚ)
    (lb ub : ℚ) (fuel : ℕ) : Option ℚ :=
  sampleLoop logFn d draws lb ub 0 fuel

/-- The fields of a `RelationAttachAlong` ('mid' relation) that its
`score_token` uses. -/
structure MidRelation where
  eval_spot : ℚ
  sigma_attach : ℚ

/-- Model of `RelationAttachAlong.score_token(token)`: build
`Normal(self.eval_spot, self.sigma_attach)` and score the token's
`eval_spot_token`.  `normalLogProb μ σ` and `normalCdf μ σ` are the
log-density and cdf of the 1-D normal with the given parameters. -/
def score_token_mid (normalLogProb normalCdf : ℚ → ℚ → ℚ → ℚ) (logFn : ℚ → ℚ)
    (lb ub : ℚ) (rel : MidRelation) (eval_spot_token : ℚ) : Option ℚ :=
  score_eval_spot_token logFn
    ⟨normalLogProb rel.eval_spot rel.sigma_attach,
      normalCdf rel.eval_spot rel.sigma_attach⟩ lb ub eval_spot_token

/-- Constant `categories_allowed` from `relation.py`. -/
def categories_allowed : List String := ["unihist", "start", "end", "mid"]

/-- The assertion of `Relation.__init__`: the category must be valid. -/
def relationInitOk (category : String) : Bool :=
  decide (category ∈ categories_allowed)

/-- The assertions run when `RelationAttach.__init__(category, attach_ix,
lib)` executes (its own plus the superclass one): only the category is
checked; `attach_ix` is stored unexamined. -/
def relationAttachInitOk (category : String) (attach_ix : ℤ) : Bool :=
  relationInitOk category && decide (category ∈ ["start", "end", "mid"])

/-- The assertion of `RelationToken.__init__(rel, **kwargs)`: for
`unihist`/`start`/`end` the kwargs must be empty, otherwise they must be
exactly `{eval_spot_token}`.  The kwargs are modelled as the optional
`eval_spot_token` entry. -/
def relationTokenInitOk (category : String) (eval_spot_token : Option ℚ) : Bool :=
  if category ∈ ["unihist", "start", "end"] then eval_spot_token.isNone
  else eval_spot_token.isSome

/-- Python list indexing `l[i]` (negative indices count from the end),
`none` for an `IndexError`. -/
def pythonGet {α : Type} (l : List α) (i : ℤ) : Option α :=
  let j := if 0 ≤ i then i else i + l.length
  if 0 ≤ j then l[j.toNat]? else none

/-!  ## Helper lemmas  -/

theorem blendNoise_zero (g : List ℚ) : blendNoise 0 g = g := by
  have h : (fun p : ℚ => (1 - 0) * p + 0 * (1 - p)) = id := by
    funext p; simp
  rw [blendNoise, h, List.map_id]

theorem blendNoise_half (g : List ℚ) :
    blendNoise (1 / 2) g = g.map (fun _ => (1 / 2 : ℚ)) := by
  have h : (fun p : ℚ => (1 - 1 / 2) * p + 1 / 2 * (1 - p)) =
      (fun _ : ℚ => (1 / 2 : ℚ)) := by
    funext p; ring
  rw [blendNoise, h]

theorem normInk_sum (ink : ℚ) (l : List ℚ) (hl : l ≠ []) :
    ink - 1 / 10000 < (normInk ink l).sum := by
  rw [normInk]
  by_cases h1 : |l.sum| < 1 / 1000000
  · rw [if_pos h1, List.map_const', List.sum_replicate, nsmul_eq_mul]
    have hn : (l.length : ℚ) ≠ 0 := by
      have := List.length_pos.2 hl
      exact_mod_cast Nat.pos_iff_ne_zero.1 this
    have : (l.length : ℚ) * (ink / (l.length : ℚ)) = ink := by
      field_simp
    rw [this]; linarith
  · rw [if_neg h1]
    by_cases h2 : l.sum < ink
    · rw [if_pos h2]
      have hs : l.sum ≠ 0 := by
        intro h0
        rw [h0] at h1
        simp at h1
      have hmap : (l.map fun v => ink / l.sum * v).sum = ink / l.sum * l.sum := by
        simpa using List.sum_map_mul_left l id (ink / l.sum)
      rw [hmap, div_mul_cancel₀ _ hs]
      linarith
    · rw [if_neg h2]
      push_neg at h2
      linarith

theorem strokeInk_ne_nil (sqrt : ℚ → ℚ) (ink maxDist : ℚ) (myt : List (ℚ × ℚ))
    (h : myt ≠ []) : strokeInk sqrt ink maxDist myt ≠ [] := by
  rw [strokeInk]
  by_cases h1 : myt.length = 1
  · simp [h1]
  · rw [if_neg h1]
    apply List.ne_nil_of_length_pos
    have hlen : 2 ≤ myt.length := by
      have h0 : 0 < myt.length := List.length_pos.2 h
      omega
    simp only [List.length_map, List.length_append, List.length_take,
      pair_dist, List.length_zipWith, List.length_tail]
    omega

/-- C7: the last step of `render_image` sets every output pixel to
`(1-epsilon)*p + epsilon*(1-p)` where `p` is the blurred and truncated
ink-map value; hence for `epsilon = 0` the output equals the
blurred/truncated ink map unchanged, and for `epsilon = 1/2` every output
pixel equals exactly `1/2` regardless of ink content. -/
theorem C7_blend_law (sqrt : ℚ → ℚ) (convB convG : List ℚ → List ℚ)
    (ink_ncon : ℕ) (blurPos : Bool) (P : RenderParams)
    (cell_traj : List (List (ℚ × ℚ))) (eps : ℚ) (pimg : List ℚ) :
    (render_image sqrt convB convG ink_ncon blurPos P cell_traj eps).1
      = blendNoise eps (preNoise sqrt convB convG ink_ncon blurPos P cell_traj) ∧
    blendNoise eps pimg = pimg.map (fun p => (1 - eps) * p + eps * (1 - p)) ∧
    (render_image sqrt convB convG ink_ncon blurPos P cell_traj 0).1
      = preNoise sqrt convB convG ink_ncon blurPos P cell_traj ∧
    (render_image sqrt convB convG ink_ncon blurPos P cell_traj (1 / 2)).1
      = (preNoise sqrt convB convG ink_ncon blurPos P cell_traj).map
          (fun _ => (1 / 2 : ℚ)) := by
  refine ⟨rfl, rfl, ?_, ?_⟩
  · exact blendNoise_zero _
  · exact blendNoise_half _

/-- C8: `apply_warp` computes the center of mass over all concatenated
trajectory points, forms `B` with `B[:2] = A[:2]` and
`B[2:] = A[2:] - (A[:2]-1)*com`, and maps every point of every stroke
independently to `A[:2]*point + B[2:]`; with zero translation the center of
mass is a fixed point of the warp map. -/
theorem C8_apply_warp (motor : List (List (List (ℚ × ℚ)))) (A : AffineT)
    (s1 s2 : ℚ) :
    apply_warp motor A
      = motor.map (List.map (List.map
          (warpPoint A (com_char motor.flatten.flatten)))) ∧
    warpPoint ⟨s1, s2, 0, 0⟩ (com_char motor.flatten.flatten)
        (com_char motor.flatten.flatten)
      = com_char motor.flatten.flatten := by
  constructor
  · rfl
  · rcases com_char motor.flatten.flatten with ⟨c1, c2⟩
    simp only [warpPoint, Prod.mk.injEq]
    constructor <;> ring

/-- C2: in `render_image`, for a stroke trajectory that retains at least one
in-bounds point, a single surviving point is assigned the full per-point ink
constant, and after renormalization the total ink assigned to the trajectory
exceeds the nominal ink constant minus the tolerance `1e-4`, so the
assertion `torch.sum(myink) > (ink-1e-4)` never fails. -/
theorem C2_ink_renorm (sqrt : ℚ → ℚ) (ink maxDist : ℚ) (myt : List (ℚ × ℚ))
    (h : myt ≠ []) :
    (myt.length = 1 → strokeInk sqrt ink maxDist myt = [ink]) ∧
    ink - 1 / 10000 < (normInk ink (strokeInk sqrt ink maxDist myt)).sum := by
  constructor
  · intro h1
    rw [strokeInk, if_pos h1]
  · exact normInk_sum ink _ (strokeInk_ne_nil sqrt ink maxDist myt h)

/-- Witness for C2 at the single-point trajectory `[(0, 0)]` with
`ink = 1`, `max_dist = 1`. -/
theorem C2_ink_renorm_witness :
    strokeInk (fun _ => 0) 1 1 [((0 : ℚ), (0 : ℚ))] = [1] ∧
    (1 : ℚ) - 1 / 10000
      < (normInk 1 (strokeInk (fun _ => 0) 1 1 [((0 : ℚ), (0 : ℚ))])).sum := by
  have h := C2_ink_renorm (fun _ => 0) 1 1 [((0 : ℚ), (0 : ℚ))] (by simp)
  exact ⟨h.1 (by simp), h.2⟩

theorem sampleLoop_bounds (logFn : ℚ → ℚ) (d : Normal1D) (draws : ℕ → ℚ)
    (lb ub v : ℚ) :
    ∀ (fuel i : ℕ), sampleLoop logFn d draws lb ub i fuel = some v →
      lb ≤ v ∧ v ≤ ub := by
  intro fuel
  induction fuel with
  | zero => intro i h; simp [sampleLoop] at h
  | succ fuel ih =>
    intro i h
    rw [sampleLoop] at h
    rcases hsc : score_eval_spot_token logFn d lb ub (draws i) with _ | w
    · rw [hsc] at h
      exact ih (i + 1) h
    · rw [hsc] at h
      simp only [Option.some.injEq] at h
      subst h
      rw [score_eval_spot_token] at hsc
      by_cases hout : draws i < lb ∨ draws i > ub
      · rw [if_pos hout] at hsc; exact absurd hsc (by simp)
      · push_neg at hout
        exact hout

/-- C4: every value returned by `sample_eval_spot_token` lies within the
valid parametric bound `[lb, ub]`: draws with `-inf` log-probability are
rejected and resampled, so a returned token never lies outside the bound
(for any draw stream, any loop fuel, and any distribution functions). -/
theorem C4_sample_within_bounds (logFn : ℚ → ℚ) (d : Normal1D)
    (draws : ℕ → ℚ) (lb ub v : ℚ) (fuel : ℕ)
    (h : sample_eval_spot_token logFn d draws lb ub fuel = some v) :
    lb ≤ v ∧ v ≤ ub := by
  exact sampleLoop_bounds logFn d draws lb ub v fuel 0 h

/-- Witness for C4: with bounds `[0, 1]` and the constant draw stream `1/2`,
the loop returns `1/2`, which lies within the bounds. -/
theorem C4_sample_within_bounds_witness :
    sample_eval_spot_token (fun _ => 0) ⟨fun _ => 0, fun _ => 0⟩
        (fun _ => 1 / 2) 0 1 5 = some (1 / 2) ∧
      (0 ≤ (1 / 2 : ℚ) ∧ (1 / 2 : ℚ) ≤ 1) := by
  have heval : sample_eval_spot_token (fun _ => 0) ⟨fun _ => 0, fun _ => 0⟩
      (fun _ => 1 / 2) 0 1 5 = some (1 / 2) := by
    rw [sample_eval_spot_token, sampleLoop, score_eval_spot_token]
    norm_num
  exact ⟨heval,
    C4_sample_within_bounds (fun _ => 0) ⟨fun _ => 0, fun _ => 0⟩
      (fun _ => 1 / 2) 0 1 (1 / 2) 5 heval⟩

/-- C5: for a 'mid' relation, `score_token` on a token whose eval-spot lies
outside the valid bound returns `-inf` (modelled `none`) without raising an
exception (the function is total); within the bound it returns the
untruncated normal log-density minus the log of the normal cdf-mass between
the bounds. -/
theorem C5_score_token_mid (normalLogProb normalCdf : ℚ → ℚ → ℚ → ℚ)
    (logFn : ℚ → ℚ) (lb ub : ℚ) (rel : MidRelation) (v : ℚ) :
    ((v < lb ∨ v > ub) →
      score_token_mid normalLogProb normalCdf logFn lb ub rel v = none) ∧
    (lb ≤ v → v ≤ ub →
      score_token_mid normalLogProb normalCdf logFn lb ub rel v
        = some (normalLogProb rel.eval_spot rel.sigma_attach v
            - logFn (normalCdf rel.eval_spot rel.sigma_attach ub
                - normalCdf rel.eval_spot rel.sigma_attach lb))) := by
  constructor
  · intro hout
    rw [score_token_mid, score_eval_spot_token, if_pos hout]
  · intro h1 h2
    rw [score_token_mid, score_eval_spot_token,
      if_neg (by push_neg; exact ⟨h1, h2⟩)]

/-- Witness for C5 at bounds `[0, 1]`: the out-of-bound token `2` scores
`none`, the in-bound token `1/2` scores the corrected log-density. -/
theorem C5_score_token_mid_witness :
    score_token_mid (fun _ _ _ => 3) (fun _ _ _ => 4) (fun _ => 5) 0 1
        ⟨0, 1⟩ 2 = none ∧
      score_token_mid (fun _ _ _ => 3) (fun _ _ _ => 4) (fun _ => 5) 0 1
        ⟨0, 1⟩ (1 / 2) = some (3 - 5) := by
  constructor
  · exact (C5_score_token_mid (fun _ _ _ => 3) (fun _ _ _ => 4) (fun _ => 5)
      0 1 ⟨0, 1⟩ 2).1 (by norm_num)
  · exact (C5_score_token_mid (fun _ _ _ => 3) (fun _ _ _ => 4) (fun _ => 5)
      0 1 ⟨0, 1⟩ (1 / 2)).2 (by norm_num) (by norm_num)

/-- Counterexample to C6 as stated: constructing `RelationAttach('start', 5,
lib)` succeeds (the only assertions run concern the category), even though
index 5 cannot refer to a prior stroke of a character with at most five
strokes; no assertion-style contract violation occurs at construction. -/
theorem C6_counterexample : relationAttachInitOk "start" 5 = true := by
  rfl

/-- C6 (amended): constructing a `RelationToken` with an invalid
relation-category/kwargs combination fails the constructor assertion, and
`RelationAttach.__init__` asserts only that the category is one of
'start'/'end'/'mid' — the attach index is stored unchecked, so its validity
does not influence construction; a non-prior attach index fails only later,
when `get_attach_point` indexes the prior-part list (an index error,
modelled as `none`, not an assertion). -/
theorem C6_init_checks (category : String) (attach_ix : ℤ) (tok : Option ℚ) :
    (relationTokenInitOk category tok = true ↔
      ((category ∈ ["unihist", "start", "end"] ∧ tok = none) ∨
        (category ∉ ["unihist", "start", "end"] ∧ tok ≠ none))) ∧
    relationAttachInitOk category attach_ix = relationAttachInitOk category 0 ∧
    (relationAttachInitOk category attach_ix = true ↔
      category ∈ ["start", "end", "mid"]) ∧
    (∀ (prev : List (List (List (ℚ × ℚ)))),
      (prev.length : ℤ) ≤ attach_ix → pythonGet prev attach_ix = none) := by
  refine ⟨?_, rfl, ?_, ?_⟩
  · rw [relationTokenInitOk]
    by_cases hc : category ∈ ["unihist", "start", "end"]
    · rw [if_pos hc]
      cases tok <;> simp [hc]
    · rw [if_neg hc]
      cases tok <;> simp [hc]
  · rw [relationAttachInitOk, relationInitOk]
    simp only [Bool.and_eq_true, decide_eq_true_eq, categories_allowed,
      List.mem_cons, List.not_mem_nil, List.mem_singleton, or_false]
    tauto
  · intro prev hlen
    have hge : (0 : ℤ) ≤ attach_ix :=
      le_trans (Int.natCast_nonneg prev.length) hlen
    rw [pythonGet]
    simp only [if_pos hge]
    apply List.getElem?_eq_none
    exact (Int.le_toNat hge).2 hlen

/-- Witness for C6 (amended): indexing an empty prior-part list at attach
index 5 yields an index error (`none`). -/
theorem C6_init_checks_witness :
    pythonGet ([] : List (List (List (ℚ × ℚ)))) 5 = none :=
  (C6_init_checks "start" 5 none).2.2.2 [] (by norm_num)

theorem psub_psub_self (h prev : ℚ × ℚ) : psub h (psub h prev) = prev := by
  rcases h with ⟨h1, h2⟩
  rcases prev with ⟨p1, p2⟩
  simp only [psub, Prod.mk.injEq]
  constructor <;> ring

theorem vanillaGo_length (spline : List (ℚ × ℚ) → ℕ → List (ℚ × ℚ))
    (neval : ℕ) :
    ∀ (pairs : List (List (ℚ × ℚ) × ℚ)) (prev : ℚ × ℚ),
      (vanillaGo spline neval prev pairs).1.length = pairs.length := by
  intro pairs
  induction pairs with
  | nil => intro prev; rfl
  | cons p rest ih =>
    intro prev
    rcases p with ⟨shape, s⟩
    simp only [vanillaGo, List.length_cons]
    rw [ih]

theorem vanillaGo_head (spline : List (ℚ × ℚ) → ℕ → List (ℚ × ℚ))
    (neval : ℕ) (hs : ∀ cpts, (spline cpts neval).length = neval)
    (hne : 1 ≤ neval) (shape : List (ℚ × ℚ)) (s : ℚ)
    (rest : List (List (ℚ × ℚ) × ℚ)) (prev : ℚ × ℚ) :
    (((vanillaGo spline neval prev ((shape, s) :: rest)).1.headD []).headD (0, 0))
      = prev := by
  have htraj : spline (shape.map (fun p => (s * p.1, s * p.2))) neval ≠ [] := by
    apply List.ne_nil_of_length_pos
    rw [hs]
    omega
  rcases hcons : spline (shape.map (fun p => (s * p.1, s * p.2))) neval with _ | ⟨h0, t⟩
  · exact absurd hcons htraj
  · simp only [vanillaGo, hcons, List.map_cons, List.headD_cons]
    exact psub_psub_self h0 prev

theorem vanillaGo_chain (spline : List (ℚ × ℚ) → ℕ → List (ℚ × ℚ))
    (neval : ℕ) (hs : ∀ cpts, (spline cpts neval).length = neval)
    (hne : 1 ≤ neval) :
    ∀ (pairs : List (List (ℚ × ℚ) × ℚ)) (prev : ℚ × ℚ) (i : ℕ),
      i + 1 < pairs.length →
      ((vanillaGo spline neval prev pairs).1.getD i []).getLastD (0, 0)
        = ((vanillaGo spline neval prev pairs).1.getD (i + 1) []).headD (0, 0) := by
  intro pairs
  induction pairs with
  | nil => intro prev i h; simp at h
  | cons p rest ih =>
    intro prev i h
    rcases p with ⟨shape, s⟩
    match i with
    | 0 =>
      rcases hr : rest with _ | ⟨⟨shape2, s2⟩, rest2⟩
      · subst hr; simp at h
      · subst hr
        have htraj : spline (shape2.map (fun p => (s2 * p.1, s2 * p.2))) neval ≠ [] := by
          apply List.ne_nil_of_length_pos
          rw [hs]
          omega
        rcases hcons : spline (shape2.map (fun p => (s2 * p.1, s2 * p.2))) neval
          with _ | ⟨h0, t⟩
        · exact absurd hcons htraj
        · simp only [vanillaGo, hcons, List.getD_cons_zero, List.getD_cons_succ,
            List.map_cons, List.headD_cons]
          rw [psub_psub_self]
    | Nat.succ j =>
      simp only [vanillaGo, List.getD_cons_succ]
      apply ih
      simp only [List.length_cons] at h
      omega

/-- C1: for every valid input to `vanilla_to_motor` (and every spline
evaluator returning `neval ≥ 1` points), the first point of the first
sub-stroke's trajectory equals `first_pos` exactly, and for every
`i < nsub - 1` the last point of sub-stroke `i`'s trajectory equals the
first point of sub-stroke `i+1`'s trajectory. -/
theorem C1_motor_first_and_connected (spline : List (ℚ × ℚ) → ℕ → List (ℚ × ℚ))
    (shapes : List (List (ℚ × ℚ))) (invscales : List ℚ) (first_pos : ℚ × ℚ)
    (neval : ℕ) (hs : ∀ cpts, (spline cpts neval).length = neval)
    (hne : 1 ≤ neval) (hshapes : shapes ≠ []) (hinv : invscales ≠ []) :
    (((vanilla_to_motor spline shapes invscales first_pos neval).1.headD
        []).headD (0, 0) = first_pos) ∧
    ∀ i : ℕ,
      i + 1 < (vanilla_to_motor spline shapes invscales first_pos neval).1.length →
      ((vanilla_to_motor spline shapes invscales first_pos neval).1.getD
          i []).getLastD (0, 0)
        = ((vanilla_to_motor spline shapes invscales first_pos neval).1.getD
            (i + 1) []).headD (0, 0) := by
  constructor
  · rcases shapes with _ | ⟨shape, shapes'⟩
    · exact absurd rfl hshapes
    · rcases invscales with _ | ⟨s, invscales'⟩
      · exact absurd rfl hinv
      · exact vanillaGo_head spline neval hs hne shape s (shapes'.zip invscales')
          first_pos
  · intro i hlen
    rw [vanilla_to_motor] at hlen ⊢
    rw [vanillaGo_length] at hlen
    exact vanillaGo_chain spline neval hs hne (shapes.zip invscales) first_pos i hlen

/-- Witness for C1 with the evaluator that repeats the first control point,
`neval = 2`, one sub-stroke and `first_pos = (3, 4)`. -/
theorem C1_motor_first_and_connected_witness :
    (((vanilla_to_motor (fun cpts k => List.replicate k (cpts.headD (0, 0)))
        [[((1 : ℚ), (2 : ℚ))]] [1] (3, 4) 2).1.headD []).headD (0, 0))
      = ((3 : ℚ), (4 : ℚ)) :=
  (C1_motor_first_and_connected (fun cpts k => List.replicate k (cpts.headD (0, 0)))
    [[((1 : ℚ), (2 : ℚ))]] [1] (3, 4) 2 (fun cpts => by simp) (by norm_num)
    (by simp) (by simp)).1

theorem renderSubstroke_flag (sqrt : ℚ → ℚ) (P : RenderParams)
    (st : List ℚ × Bool) (traj : List (ℚ × ℚ)) :
    (renderSubstroke sqrt P st traj).2
      = (st.2 || (check_bounds traj ((P.m : ℤ), (P.n : ℤ))).any id) := by
  simp only [renderSubstroke]
  split <;> rfl

theorem render_fold_flag (sqrt : ℚ → ℚ) (P : RenderParams) :
    ∀ (ts : List (List (ℚ × ℚ))) (g : List ℚ) (f : Bool),
      (ts.foldl (renderSubstroke sqrt P) (g, f)).2
        = (f || ts.any
            (fun t => (check_bounds t ((P.m : ℤ), (P.n : ℤ))).any id)) := by
  intro ts
  induction ts with
  | nil => intro g f; simp
  | cons t ts ih =>
    intro g f
    rw [List.foldl_cons]
    rcases hst : renderSubstroke sqrt P (g, f) t with ⟨g2, f2⟩
    have h2 := renderSubstroke_flag sqrt P (g, f) t
    rw [hst] at h2
    simp only at h2
    rw [ih g2 f2, h2]
    simp [Bool.or_assoc]

/-- C3: a point is out of bounds exactly when its floor is negative or its
ceiling exceeds the image dimension on either axis; the returned
`ink_off_page` flag is true exactly when some point of some (image-space)
trajectory is out of bounds — so a fully in-bounds character leaves it
false; and a trajectory all of whose points are out of bounds is skipped,
contributing zero ink to the grid. -/
theorem C3_bounds_and_flag (sqrt : ℚ → ℚ) (P : RenderParams)
    (cell_traj : List (List (ℚ × ℚ))) :
    (∀ (p : ℚ × ℚ) (s : ℤ × ℤ),
      pointOut s p = true ↔
        (⌊p.1⌋ < 0 ∨ ⌈p.1⌉ > s.1 ∨ ⌊p.2⌋ < 0 ∨ ⌈p.2⌉ > s.2)) ∧
    ((render_strokes sqrt P cell_traj).2 = true ↔
      ∃ t ∈ cell_traj, ∃ p ∈ t,
        pointOut ((P.m : ℤ), (P.n : ℤ)) (space_motor_to_img p) = true) ∧
    (∀ (st : List ℚ × Bool) (traj : List (ℚ × ℚ)),
      (check_bounds traj ((P.m : ℤ), (P.n : ℤ))).all id = true →
      (renderSubstroke sqrt P st traj).1 = st.1) := by
  refine ⟨?_, ?_, ?_⟩
  · intro p s
    simp [pointOut, or_assoc]
  · rw [render_strokes, render_fold_flag]
    simp [check_bounds, List.any_map, Function.comp]
  · intro st traj h
    simp only [renderSubstroke, h]
    simp

/-- Witness for C3: a trajectory whose only point lies at image-space
`(5, 0)` in a 2×2 image is entirely out of bounds and leaves the grid
untouched. -/
theorem C3_bounds_and_flag_witness :
    (renderSubstroke (fun q => q) ⟨2, 2, 1, 1⟩ ([0, 0, 0, 0], false)
        [(((5 : ℤ) : ℚ), ((0 : ℤ) : ℚ))]).1 = [0, 0, 0, 0] :=
  (C3_bounds_and_flag (fun q => q) ⟨2, 2, 1, 1⟩ []).2.2 ([0, 0, 0, 0], false)
    [(((5 : ℤ) : ℚ), ((0 : ℤ) : ℚ))] (by simp [check_bounds, pointOut])

theorem addFlat_length : ∀ (l : List ℚ) (i : ℕ) (v : ℚ),
    (addFlat l i v).length = l.length := by
  intro l
  induction l with
  | nil => intro i v; rfl
  | cons a t ih =>
    intro i v
    match i with
    | 0 => rfl
    | Nat.succ j => simp [addFlat, ih]

theorem nth_addFlat : ∀ (l : List ℚ) (i : ℕ) (v : ℚ) (j : ℕ),
    nth (addFlat l i v) j
      = nth l j + if j = i ∧ j < l.length then v else 0 := by
  intro l
  induction l with
  | nil => intro i v j; simp [addFlat, nth]
  | cons a t ih =>
    intro i v j
    match i, j with
    | 0, 0 => simp [addFlat, nth]
    | 0, Nat.succ j2 => simp [addFlat, nth]
    | Nat.succ i2, 0 => simp [addFlat, nth]
    | Nat.succ i2, Nat.succ j2 =>
      simp only [addFlat, nth, List.getD_cons_succ, List.length_cons]
      have hih := ih i2 v j2
      simp only [nth] at hih
      rw [hih]
      congr 1
      exact if_congr (by omega) rfl rfl

theorem foldl_addFlat_length :
    ∀ (pairs : List (ℤ × ℚ)) (l : List ℚ),
      (pairs.foldl (fun acc q => addFlat acc q.1.toNat q.2) l).length
        = l.length := by
  intro pairs
  induction pairs with
  | nil => intro l; rfl
  | cons q rest ih =>
    intro l
    rw [List.foldl_cons, ih, addFlat_length]

theorem nth_foldl_addFlat :
    ∀ (pairs : List (ℤ × ℚ)) (l : List ℚ) (j : ℕ),
      nth (pairs.foldl (fun acc q => addFlat acc q.1.toNat q.2) l) j
        = nth l j +
            if j < l.length then
              ((pairs.filter (fun q => decide (q.1.toNat = j))).map Prod.snd).sum
            else 0 := by
  intro pairs
  induction pairs with
  | nil => intro l j; simp
  | cons q rest ih =>
    intro l j
    rw [List.foldl_cons, ih, nth_addFlat, addFlat_length]
    by_cases hl : j < l.length
    · simp only [if_pos hl]
      by_cases hq : q.1.toNat = j
      · rw [List.filter_cons_of_pos (by simp [hq]), if_pos ⟨hq.symm, hl⟩]
        simp only [List.map_cons, List.sum_cons]
        ring
      · have h2 : ¬(j = q.1.toNat ∧ j < l.length) := fun hc => hq hc.1.symm
        rw [List.filter_cons_of_neg (by simp [hq]), if_neg h2]
        ring
    · have h2 : ¬(j = q.1.toNat ∧ j < l.length) := fun hc => hl hc.2
      simp only [if_neg hl, if_neg h2]
      ring

theorem sum_filter_partition (l : List (ℤ × ℚ)) (P Q : ℤ × ℚ → Bool) :
    ((l.filter P).map Prod.snd).sum
      = (((l.filter Q).filter P).map Prod.snd).sum
        + (((l.filter (fun x => !Q x)).filter P).map Prod.snd).sum := by
  induction l with
  | nil => simp
  | cons x t ih =>
    by_cases hP : P x <;> by_cases hQ : Q x <;>
      simp [List.filter_cons, hP, hQ, ih] <;> ring

theorem group_sum_eq (j : ℕ) :
    ∀ (uniq : List ℤ) (pairs : List (ℤ × ℚ)), uniq.Nodup →
      (∀ p ∈ pairs, p.1 ∈ uniq) →
      (((uniq.map (fun i =>
          (i, ((pairs.filter (fun q => decide (q.1 = i))).map Prod.snd).sum))).filter
            (fun q => decide (q.1.toNat = j))).map Prod.snd).sum
        = ((pairs.filter (fun q => decide (q.1.toNat = j))).map Prod.snd).sum := by
  intro uniq
  induction uniq with
  | nil =>
    intro pairs hnd hmem
    cases pairs with
    | nil => simp
    | cons p ps => exact absurd (hmem p (by simp)) (by simp)
  | cons a t ih =>
    intro pairs hnd hmem
    have hat : a ∉ t := (List.nodup_cons.1 hnd).1
    have hnt : t.Nodup := (List.nodup_cons.1 hnd).2
    have htail : t.map (fun i =>
          (i, ((pairs.filter (fun q => decide (q.1 = i))).map Prod.snd).sum))
        = t.map (fun i =>
          (i, (((pairs.filter (fun q => !decide (q.1 = a))).filter
              (fun q => decide (q.1 = i))).map Prod.snd).sum)) := by
      apply List.map_congr_left
      intro i hi
      have hia : i ≠ a := fun he => hat (he ▸ hi)
      have hfe : (pairs.filter (fun q => !decide (q.1 = a))).filter
            (fun q => decide (q.1 = i))
          = pairs.filter (fun q => decide (q.1 = i)) := by
        rw [List.filter_filter]
        apply List.filter_congr
        intro x _
        by_cases hxi : x.1 = i
        · have hxa : ¬(x.1 = a) := by rw [hxi]; exact hia
          simp [hxi, hxa, hia]
        · simp [hxi]
      rw [hfe]
    have hmem2 : ∀ p ∈ pairs.filter (fun q => !decide (q.1 = a)), p.1 ∈ t := by
      intro p hp
      rcases List.mem_filter.1 hp with ⟨hpm, hpa⟩
      have := hmem p hpm
      simp only [Bool.not_eq_true', decide_eq_false_iff_not] at hpa
      rcases List.mem_cons.1 this with he | ht
      · exact absurd he hpa
      · exact ht
    have hIH := ih (pairs.filter (fun q => !decide (q.1 = a))) hnt hmem2
    rw [sum_filter_partition pairs (fun q => decide (q.1.toNat = j))
      (fun q => decide (q.1 = a))]
    by_cases haj : a.toNat = j
    · have hfa : (pairs.filter (fun q => decide (q.1 = a))).filter
          (fun q => decide (q.1.toNat = j))
            = pairs.filter (fun q => decide (q.1 = a)) := by
        apply List.filter_eq_self.2
        intro x hx
        have hxa : x.1 = a := by
          have := (List.mem_filter.1 hx).2
          simpa using this
        simp [hxa, haj]
      rw [List.map_cons, htail,
        List.filter_cons_of_pos (by simpa using haj), List.map_cons,
        List.sum_cons, hfa]
      simp only [Function.comp] at hIH ⊢
      rw [hIH]
    · have hfa : (pairs.filter (fun q => decide (q.1 = a))).filter
          (fun q => decide (q.1.toNat = j)) = [] := by
        rw [List.filter_eq_nil_iff]
        intro x hx
        have hxa : x.1 = a := by
          have := (List.mem_filter.1 hx).2
          simpa using this
        simp [hxa, haj]
      rw [List.map_cons, htail,
        List.filter_cons_of_neg (by simpa using haj), hfa]
      simp only [List.map_nil, List.sum_nil, zero_add]
      rw [hIH]

theorem seqadd_length (m n : ℕ) (D : List ℚ) (pts : List (ℚ × ℚ × ℚ)) :
    (seqadd m n D pts).length = D.length := by
  simp only [seqadd]
  split
  · rfl
  · exact foldl_addFlat_length _ _

theorem nth_seqadd (m n : ℕ) (D : List ℚ) (pts : List (ℚ × ℚ × ℚ)) (j : ℕ) :
    nth (seqadd m n D pts) j
      = nth D j + if j < D.length then inkAt m n pts j else 0 := by
  have hink : inkAt m n pts j
      = (((pts.filter
            (fun p => !pointOut ((m : ℤ) - 1, (n : ℤ) - 1) (p.1, p.2.1))).filter
          (fun p => decide ((sub2ind n (pyLong p.1) (pyLong p.2.1)).toNat = j))).map
        (fun p => p.2.2)).sum := by
    rw [inkAt, List.filter_filter]
    congr 2
    apply List.filter_congr
    intro x _
    exact Bool.and_comm _ _
  rw [hink]
  simp only [seqadd]
  by_cases hk : (pts.filter
      (fun p => !pointOut ((m : ℤ) - 1, (n : ℤ) - 1) (p.1, p.2.1))).isEmpty
  · rw [if_pos hk]
    have hnil : pts.filter
        (fun p => !pointOut ((m : ℤ) - 1, (n : ℤ) - 1) (p.1, p.2.1)) = [] :=
      List.isEmpty_iff.1 hk
    rw [hnil]
    simp
  · rw [if_neg hk]
    rw [nth_foldl_addFlat]
    congr 1
    by_cases hj : j < D.length
    · rw [if_pos hj, if_pos hj]
      rw [group_sum_eq j _ _ (List.nodup_dedup _) ?hmem]
      case hmem =>
        intro p hp
        exact List.mem_dedup.2 (List.mem_map_of_mem Prod.fst hp)
      rw [List.filter_map, List.map_map]
      rfl
    · rw [if_neg hj, if_neg hj]

/-- C9: pixel accumulation in `seqadd` is order-independent and
duplicate-summing — the output image depends on the adding points only
through the per-pixel sums of their in-bounds contributions, so any
permutation of the adding points yields an identical image, and each
affected pixel receives its previous value plus the summed (not
overwritten) contributions mapping to it. -/
theorem C9_seqadd_accumulation (m n : ℕ) (D : List ℚ)
    (pts pts2 : List (ℚ × ℚ × ℚ)) (j : ℕ) (hperm : pts.Perm pts2) :
    seqadd m n D pts = seqadd m n D pts2 ∧
    (j < D.length → nth (seqadd m n D pts) j = nth D j + inkAt m n pts j) := by
  constructor
  · apply List.ext_getElem
    · rw [seqadd_length, seqadd_length]
    · intro i h1 h2
      rw [← List.getD_eq_getElem (seqadd m n D pts) 0 h1,
        ← List.getD_eq_getElem (seqadd m n D pts2) 0 h2]
      have hAt : inkAt m n pts i = inkAt m n pts2 i := by
        rw [inkAt, inkAt]
        exact ((hperm.filter _).map _).sum_eq
      show nth (seqadd m n D pts) i = nth (seqadd m n D pts2) i
      rw [nth_seqadd, nth_seqadd, hAt]
  · intro hj
    rw [nth_seqadd, if_pos hj]

/-- Witness for C9: swapping two adding points that target the same pixel
of a 1×1 image leaves the result unchanged, and the pixel receives the sum
of both contributions. -/
theorem C9_seqadd_accumulation_witness :
    seqadd 1 1 [0] [(0, 0, 1), (0, 0, 2)] = seqadd 1 1 [0] [(0, 0, 2), (0, 0, 1)] ∧
    (0 < ([(0 : ℚ)].length) →
      nth (seqadd 1 1 [0] [(0, 0, 1), (0, 0, 2)]) 0
        = nth [0] 0 + inkAt 1 1 [(0, 0, 1), (0, 0, 2)] 0) :=
  C9_seqadd_accumulation 1 1 [0] [(0, 0, 1), (0, 0, 2)] [(0, 0, 2), (0, 0, 1)] 0
    (List.Perm.swap (0, 0, 2) (0, 0, 1) [])

set_option maxHeartbeats 2000000

/-- C10: `seqadd` checks its adding points against the image dimensions
minus one and silently discards any contribution whose floor or ceiling
index falls outside `[0, dim-1]`; consequently a trajectory point whose
ceiling coordinate equals the image dimension (which passes
`render_image`'s bounds check) has the ceiling-neighbour share of its
bilinear splat dropped: concretely, in a 2×2 image, the single model-space
point `(0, -3/2)` (image space `(3/2, 0)`) keeps `ink_off_page = false`
while only `1/2` of its unit ink budget reaches the grid. -/
theorem C10_seqadd_edge_loss (m n : ℕ) (D : List ℚ) (x y v : ℚ)
    (rest : List (ℚ × ℚ × ℚ))
    (h : pointOut ((m : ℤ) - 1, (n : ℤ) - 1) (x, y) = true) :
    (seqadd m n D ((x, y, v) :: rest) = seqadd m n D rest) ∧
    (render_strokes (fun q => q) ⟨2, 2, 1, 1⟩ [[(0, -(3/2))]]).2 = false ∧
    (render_strokes (fun q => q) ⟨2, 2, 1, 1⟩ [[(0, -(3/2))]]).1.sum = 1 / 2 ∧
    ((1 : ℚ) / 2) < 1 := by
  have hf32 : (⌊(3/2 : ℚ)⌋ : ℤ) = 1 := by norm_num
  have hc32 : (⌈(3/2 : ℚ)⌉ : ℤ) = 2 := by
    rw [Int.ceil_eq_iff]
    norm_num
  have hfr : Int.fract ((3:ℚ)/2) = 1/2 := by
    rw [Int.fract, hf32]
    norm_num
  refine ⟨?_, ?_, ?_, by norm_num⟩
  · have hk : ((x, y, v) :: rest).filter
        (fun p => !pointOut ((m : ℤ) - 1, (n : ℤ) - 1) (p.1, p.2.1))
        = rest.filter
            (fun p => !pointOut ((m : ℤ) - 1, (n : ℤ) - 1) (p.1, p.2.1)) := by
      rw [List.filter_cons_of_neg]
      simp [h]
    simp only [seqadd, hk]
  · norm_num [render_strokes, renderSubstroke, check_bounds, pointOut,
      space_motor_to_img, hf32, hc32]
  · norm_num [render_strokes, renderSubstroke, check_bounds, pointOut,
      space_motor_to_img, strokeInk, normInk, pair_dist, seqadd, sub2ind,
      pyLong, cRatio, fRatio, addFlat, List.dedup, hf32, hc32, hfr]

/-- Witness for C10: the contribution at `(5, 0)`, out of bounds for the
reduced `1×1` check of a 2×2 image, is silently discarded. -/
theorem C10_seqadd_edge_loss_witness :
    seqadd 2 2 [0, 0, 0, 0] [((5 : ℚ), (0 : ℚ), (1 : ℚ))] = seqadd 2 2 [0, 0, 0, 0] [] :=
  (C10_seqadd_edge_loss 2 2 [0, 0, 0, 0] 5 0 1 []
    (by norm_num [pointOut])).1
